import Mathlib

/-!
# Verification of the aligned bar store (`market_data_manager.py`)

A shallow embedding of the core of the market-data manager: the merge
engine (`merge_data`), the alignment engine (`filter_and_align`), the
dual-format persistence layer (`_save_binary` / `_read_binary_file`),
the trading-day listing, the status query and the integrity verifier.

Model conventions:
* A model timestamp is a minute count `t : Nat` since a fixed epoch;
  `t / MINUTES_PER_DAY` is its exchange-local calendar date and
  `t % MINUTES_PER_DAY` its exchange-local minute of the day.  This is
  one-to-one with the tz-aware `DatetimeIndex` the source keys frames by.
* A keyed frame is a `List (Nat × α)`: rows in order, each carrying its
  index timestamp; `α` is the row payload (the OHLCV columns).
* `pandas` missing values (`NaT`) are `Option.none`; `NaT.date()` is
  again `NaT` (`date` is one of the NaT-returning methods of `NaTType`),
  so date extraction maps over the option.
-/

namespace MarketData

/-- `BARS_PER_DAY` from the source: 391 one-minute bars per trading day
(09:30 through 16:00 inclusive). -/
def BARS_PER_DAY : Nat := 391

/-- Minutes in a calendar day; used to split a model timestamp into date
and time of day. -/
def MINUTES_PER_DAY : Nat := 1440

/-- `RTH_START = "09:30"` as a minute of the day. -/
def RTH_START : Nat := 9 * 60 + 30

/-- `RTH_END = "16:00"` as a minute of the day. -/
def RTH_END : Nat := 16 * 60

/-- Exchange-local calendar date of a model timestamp (`index.normalize()` /
`.date()` of the source collapse a timestamp to its day). -/
def dateOf (t : Nat) : Nat := t / MINUTES_PER_DAY

/-- Exchange-local minute of the day of a model timestamp
(`between_time` filters on this component). -/
def timeOf (t : Nat) : Nat := t % MINUTES_PER_DAY

/-! ## Merge Engine: `merge_data` -/

/-- The statistics dictionary built by `merge_data`.  `added_bars` and
`overlapping_bars` are computed by integer subtraction in the source, so
they are `Int` here; `start_date`/`end_date` are `none` when the source
would hold `NaT` (the `.min()`/`.max()` of an empty index). -/
structure MergeStats where
  existing_bars : Nat
  new_bars : Nat
  added_bars : Int
  overlapping_bars : Int
  start_date : Option Nat
  end_date : Option Nat
deriving Repr, DecidableEq

/-- `df.index.min().date()`: date of the smallest index key, `none` (`NaT`)
for an empty frame. -/
def indexMinDate (l : List (Nat × α)) : Option Nat :=
  ((l.map Prod.fst).min?).map dateOf

/-- `df.index.max().date()`: date of the largest index key, `none` (`NaT`)
for an empty frame. -/
def indexMaxDate (l : List (Nat × α)) : Option Nat :=
  ((l.map Prod.fst).max?).map dateOf

/-- `combined[~combined.index.duplicated(keep='last')]`: keep, in row
order, only the last occurrence of each index key. -/
def dropDupKeysKeepLast : List (Nat × α) → List (Nat × α)
  | [] => []
  | x :: xs =>
    if xs.any (fun y => y.1 == x.1) then dropDupKeysKeepLast xs
    else x :: dropDupKeysKeepLast xs

/-- `combined.sort_index()`: sort rows ascending by index key (the keys are
distinct after duplicate removal, so stability is irrelevant and any
comparison sort computes the same row list). -/
def sortByKey (l : List (Nat × α)) : List (Nat × α) :=
  l.insertionSort (fun a b => a.1 ≤ b.1)

/-- `merge_data(existing, new)` from `market_data_manager.py`.  The payload
`α` stands for the row of OHLCV columns (the source projects both frames
onto `['open','high','low','close','volume']` before concatenating; the
display columns it drops are regenerated at save time and are not part of
the merge).  With no existing data (or an empty existing frame) the new
frame is returned verbatim; otherwise the two frames are concatenated,
index duplicates are dropped keeping the last (new) occurrence, and the
result is sorted by index. -/
def merge_data (existing : Option (List (Nat × α))) (new : List (Nat × α)) :
    List (Nat × α) × MergeStats :=
  let stats0 : MergeStats :=
    { existing_bars := match existing with | some e => e.length | none => 0
      new_bars := new.length
      added_bars := 0
      overlapping_bars := 0
      start_date := none
      end_date := none }
  match existing with
  | none =>
      (new, { stats0 with
                added_bars := (new.length : Int)
                start_date := indexMinDate new
                end_date := indexMaxDate new })
  | some e =>
      if e.isEmpty then
        (new, { stats0 with
                  added_bars := (new.length : Int)
                  start_date := indexMinDate new
                  end_date := indexMaxDate new })
      else
        let combined := sortByKey (dropDupKeysKeepLast (e ++ new))
        (combined,
         { stats0 with
             added_bars := (combined.length : Int) - (e.length : Int)
             overlapping_bars :=
               (e.length : Int) + (new.length : Int) - (combined.length : Int)
             start_date := indexMinDate combined
             end_date := indexMaxDate combined })

/-! ### Key-set lemmas about duplicate removal and sorting -/

/-- Duplicate removal preserves the set of index keys. -/
theorem mem_keys_dropDupKeysKeepLast {α : Type} (l : List (Nat × α)) (k : Nat) :
    k ∈ (dropDupKeysKeepLast l).map Prod.fst ↔ k ∈ l.map Prod.fst := by
  induction l with
  | nil => simp [dropDupKeysKeepLast]
  | cons x xs ih =>
    by_cases h : xs.any (fun y => y.1 == x.1)
    · simp only [dropDupKeysKeepLast, if_pos h, List.map_cons, List.mem_cons]
      rw [ih]
      constructor
      · exact Or.inr
      · rintro (rfl | hmem)
        · rcases List.any_eq_true.mp h with ⟨y, hy, hk⟩
          exact List.mem_map.mpr ⟨y, hy, eq_of_beq hk⟩
        · exact hmem
    · simp only [dropDupKeysKeepLast, if_neg h, List.map_cons, List.mem_cons, ih]

/-- Sorting preserves row membership. -/
theorem mem_sortByKey {α : Type} (l : List (Nat × α)) (p : Nat × α) :
    p ∈ sortByKey l ↔ p ∈ l :=
  (List.perm_insertionSort _ l).mem_iff

/-- Sorting preserves the set of index keys. -/
theorem mem_keys_sortByKey {α : Type} (l : List (Nat × α)) (k : Nat) :
    k ∈ (sortByKey l).map Prod.fst ↔ k ∈ l.map Prod.fst :=
  ((List.perm_insertionSort _ l).map Prod.fst).mem_iff

/-- The value carried by the last occurrence of index key `k` in row list
`l`, if any (first match of the reversed list). -/
def lastVal (k : Nat) (l : List (Nat × α)) : Option α :=
  (l.reverse.find? (fun y => y.1 == k)).map Prod.snd

theorem lastVal_cons_ne {α : Type} {x : Nat × α} {xs : List (Nat × α)} {k : Nat}
    (h : ¬ x.1 = k) : lastVal k (x :: xs) = lastVal k xs := by
  simp [lastVal, List.find?_append, List.find?_cons, h]

theorem lastVal_cons_of_mem {α : Type} {x : Nat × α} {xs : List (Nat × α)} {k : Nat}
    (h : k ∈ xs.map Prod.fst) : lastVal k (x :: xs) = lastVal k xs := by
  rcases List.mem_map.mp h with ⟨y, hy, rfl⟩
  have hsome : (xs.reverse.find? (fun w => w.1 == y.1)).isSome = true := by
    rw [List.find?_isSome]
    exact ⟨y, List.mem_reverse.mpr hy, by simp⟩
  rcases Option.isSome_iff_exists.mp hsome with ⟨z, hz⟩
  simp [lastVal, List.find?_append, hz]

/-- Membership in the duplicate-stripped list is exactly carrying the value
of the *last* occurrence of one's key (pandas `keep='last'`). -/
theorem mem_dropDupKeysKeepLast_iff {α : Type} (l : List (Nat × α)) (k : Nat) (b : α) :
    (k, b) ∈ dropDupKeysKeepLast l ↔ lastVal k l = some b := by
  induction l with
  | nil => simp [dropDupKeysKeepLast, lastVal]
  | cons x xs ih =>
    by_cases h : xs.any (fun y => y.1 == x.1)
    · rw [show dropDupKeysKeepLast (x :: xs) = dropDupKeysKeepLast xs from by
        simp [dropDupKeysKeepLast, h]]
      rcases List.any_eq_true.mp h with ⟨y, hy, hk⟩
      by_cases hxk : x.1 = k
      · have hkmem : k ∈ xs.map Prod.fst :=
          List.mem_map.mpr ⟨y, hy, by rw [eq_of_beq hk, hxk]⟩
        rw [ih, lastVal_cons_of_mem hkmem]
      · rw [ih, lastVal_cons_ne hxk]
    · rw [show dropDupKeysKeepLast (x :: xs) = x :: dropDupKeysKeepLast xs from by
        simp [dropDupKeysKeepLast, h]]
      have hnot : ∀ y ∈ xs, ¬ y.1 = x.1 := by
        intro y hy hk
        exact h (List.any_eq_true.mpr ⟨y, hy, beq_iff_eq.mpr hk⟩)
      rw [List.mem_cons, ih]
      by_cases hxk : x.1 = k
      · have hnone : xs.reverse.find? (fun y => y.1 == k) = none := by
          rw [List.find?_eq_none]
          intro y hy
          simp only [beq_iff_eq]
          exact fun hk => hnot y (List.mem_reverse.mp hy) (hk.trans hxk.symm)
        have hlvxs : lastVal k xs = none := by
          rw [lastVal, hnone]
          rfl
        have hlv : lastVal k (x :: xs) = some x.2 := by
          simp [lastVal, List.find?_append, List.find?_cons, hnone, hxk]
        rw [hlv, hlvxs]
        constructor
        · rintro (hhead | hfalse)
          · rw [← hhead]
          · exact absurd hfalse (by simp)
        · intro hb
          refine Or.inl ?_
          have hx : x = (k, b) := by
            rw [Prod.ext_iff]
            exact ⟨hxk, Option.some_inj.mp hb⟩
          exact hx.symm
      · rw [lastVal_cons_ne hxk]
        constructor
        · rintro (hhead | htail)
          · exact absurd (congrArg Prod.fst hhead).symm hxk
          · exact htail
        · exact fun hb => Or.inr hb


/-- In a row list with distinct keys, `find?` on a key present returns
exactly that row. -/
theorem find?_key_of_nodup {α : Type} :
    ∀ (l : List (Nat × α)), (l.map Prod.fst).Nodup → ∀ {k : Nat} {b : α},
      (k, b) ∈ l → l.find? (fun w => w.1 == k) = some (k, b)
  | [], _, _, _, h => absurd h (List.not_mem_nil _)
  | y :: ys, hnd, k, b, h => by
    rw [List.map_cons] at hnd
    rcases List.nodup_cons.mp hnd with ⟨hy, hys⟩
    rcases List.mem_cons.mp h with hhead | htail
    · rw [← hhead]
      exact List.find?_cons_of_pos _ (by simp)
    · have hk : k ∈ ys.map Prod.fst := List.mem_map.mpr ⟨(k, b), htail, rfl⟩
      have hne : ¬ ((fun w : Nat × α => w.1 == k) y) = true := by
        simp only [beq_iff_eq]
        exact fun hkey => hy (hkey ▸ hk)
      rw [List.find?_cons_of_neg ys hne]
      exact find?_key_of_nodup ys hys htail

/-- If `(k, b)` sits in `N` and `N` has distinct keys, the last occurrence
of `k` in `E ++ N` is `N`'s row. -/
theorem lastVal_append_of_nodup {α : Type} {E N : List (Nat × α)} {k : Nat} {b : α}
    (hN : (N.map Prod.fst).Nodup) (hb : (k, b) ∈ N) :
    lastVal k (E ++ N) = some b := by
  have h1 : N.reverse.find? (fun w => w.1 == k) = some (k, b) := by
    apply find?_key_of_nodup
    · rw [List.map_reverse]
      exact List.nodup_reverse.mpr hN
    · exact List.mem_reverse.mpr hb
  simp [lastVal, List.reverse_append, List.find?_append, h1]

/-- If every key of `l₁` reappears in `l₂`, the whole prefix `l₁` is
dropped by last-occurrence duplicate removal. -/
theorem dropDupKeysKeepLast_append_of_covered {α : Type} :
    ∀ (l₁ l₂ : List (Nat × α)), (∀ x ∈ l₁, x.1 ∈ l₂.map Prod.fst) →
      dropDupKeysKeepLast (l₁ ++ l₂) = dropDupKeysKeepLast l₂
  | [], _, _ => rfl
  | x :: l₁, l₂, h => by
    have hx : x.1 ∈ l₂.map Prod.fst := h x (List.mem_cons_self ..)
    have hany : (l₁ ++ l₂).any (fun y => y.1 == x.1) = true := by
      rcases List.mem_map.mp hx with ⟨y, hy, hk⟩
      exact List.any_eq_true.mpr ⟨y, List.mem_append_right _ hy, by simp [hk]⟩
    rw [List.cons_append, show dropDupKeysKeepLast (x :: (l₁ ++ l₂))
          = dropDupKeysKeepLast (l₁ ++ l₂) from by simp [dropDupKeysKeepLast, hany]]
    exact dropDupKeysKeepLast_append_of_covered l₁ l₂
      (fun z hz => h z (List.mem_cons_of_mem _ hz))

/-- Duplicate removal is the identity on a row list with distinct keys. -/
theorem dropDupKeysKeepLast_of_nodup {α : Type} :
    ∀ (l : List (Nat × α)), (l.map Prod.fst).Nodup → dropDupKeysKeepLast l = l
  | [], _ => rfl
  | x :: xs, hnd => by
    rw [List.map_cons] at hnd
    rcases List.nodup_cons.mp hnd with ⟨hx, hxs⟩
    have hany : ¬ xs.any (fun y => y.1 == x.1) = true := by
      rw [List.any_eq_true]
      rintro ⟨y, hy, hk⟩
      exact hx (List.mem_map.mpr ⟨y, hy, eq_of_beq hk⟩)
    rw [show dropDupKeysKeepLast (x :: xs) = x :: dropDupKeysKeepLast xs from by
      simp [dropDupKeysKeepLast, hany]]
    rw [dropDupKeysKeepLast_of_nodup xs hxs]

/-- Sorting by key is the identity on a list already strictly ascending
in its keys. -/
theorem sortByKey_of_sorted {α : Type} {l : List (Nat × α)}
    (h : l.Pairwise (fun a b => a.1 < b.1)) : sortByKey l = l :=
  List.Sorted.insertionSort_eq (h.imp (fun hab => Nat.le_of_lt hab))

/-- Evaluation of `merge_data` on a non-empty existing frame. -/
theorem merge_data_cons {α : Type} (x : Nat × α) (xs new : List (Nat × α)) :
    merge_data (some (x :: xs)) new
      = (sortByKey (dropDupKeysKeepLast ((x :: xs) ++ new)),
         { existing_bars := (x :: xs).length
           new_bars := new.length
           added_bars := ((sortByKey (dropDupKeysKeepLast ((x :: xs) ++ new))).length : Int)
             - ((x :: xs).length : Int)
           overlapping_bars := ((x :: xs).length : Int) + (new.length : Int)
             - ((sortByKey (dropDupKeysKeepLast ((x :: xs) ++ new))).length : Int)
           start_date := indexMinDate (sortByKey (dropDupKeysKeepLast ((x :: xs) ++ new)))
           end_date := indexMaxDate (sortByKey (dropDupKeysKeepLast ((x :: xs) ++ new))) }) :=
  rfl

/-- C1: merge is append-only: every epoch key present in the existing
dataset `E` before the call is still present in the result of
`merge_data (some E) N`; no key of `E` is ever dropped. -/
theorem merge_append_only {α : Type} (E N : List (Nat × α)) (k : Nat)
    (hk : k ∈ E.map Prod.fst) :
    k ∈ ((merge_data (some E) N).1).map Prod.fst := by
  cases E with
  | nil => simp at hk
  | cons x xs =>
    show k ∈ (sortByKey (dropDupKeysKeepLast ((x :: xs) ++ N))).map Prod.fst
    rw [mem_keys_sortByKey, mem_keys_dropDupKeysKeepLast, List.map_append,
      List.mem_append]
    exact Or.inl hk

/-- Witness for C1: the epoch 0 present in the existing dataset survives a
merge with a disjoint new dataset. -/
theorem merge_append_only_witness :
    ((0 : Nat) ∈ ([((0 : Nat), (0 : Nat))]).map Prod.fst) ∧
      (0 : Nat) ∈ ((merge_data (some [((0 : Nat), (0 : Nat))])
        [((1 : Nat), (5 : Nat))]).1).map Prod.fst :=
  ⟨by decide, merge_append_only [((0 : Nat), (0 : Nat))] [((1 : Nat), (5 : Nat))] 0
    (by decide)⟩

/-- C4: merge is last-write-wins: for an epoch key present in both the
existing dataset `E` and the new dataset `N` (an aligned dataset, so its
keys are distinct) with differing row values, the merged result carries
`N`'s row at that key and not `E`'s. -/
theorem merge_last_write_wins {α : Type} (E N : List (Nat × α)) (k : Nat) (bE bN : α)
    (hN : (N.map Prod.fst).Nodup)
    (hkE : (k, bE) ∈ E) (hkN : (k, bN) ∈ N) (hne : bE ≠ bN) :
    (k, bN) ∈ (merge_data (some E) N).1 ∧ (k, bE) ∉ (merge_data (some E) N).1 := by
  cases E with
  | nil => simp at hkE
  | cons x xs =>
    have hlast : lastVal k ((x :: xs) ++ N) = some bN := lastVal_append_of_nodup hN hkN
    have hres : (merge_data (some (x :: xs)) N).1
        = sortByKey (dropDupKeysKeepLast ((x :: xs) ++ N)) := rfl
    rw [hres]
    constructor
    · rw [mem_sortByKey, mem_dropDupKeysKeepLast_iff]
      exact hlast
    · rw [mem_sortByKey, mem_dropDupKeysKeepLast_iff, hlast]
      intro hEq
      exact hne (Option.some_inj.mp hEq).symm

/-- Witness for C4: epoch 0 carries value 1 in the existing dataset and
value 2 in the new one; the merge keeps 2 and drops 1. -/
theorem merge_last_write_wins_witness :
    (([((0 : Nat), (2 : Nat))]).map Prod.fst).Nodup ∧
    ((0 : Nat), (1 : Nat)) ∈ [((0 : Nat), (1 : Nat))] ∧
    ((0 : Nat), (2 : Nat)) ∈ [((0 : Nat), (2 : Nat))] ∧
    (1 : Nat) ≠ 2 ∧
    (((0 : Nat), (2 : Nat)) ∈
        (merge_data (some [((0 : Nat), (1 : Nat))]) [((0 : Nat), (2 : Nat))]).1 ∧
      ((0 : Nat), (1 : Nat)) ∉
        (merge_data (some [((0 : Nat), (1 : Nat))]) [((0 : Nat), (2 : Nat))]).1) :=
  ⟨by decide, by decide, by decide, by decide,
    merge_last_write_wins [((0 : Nat), (1 : Nat))] [((0 : Nat), (2 : Nat))] 0 1 2
      (by decide) (by decide) (by decide) (by decide)⟩

/-- C5: merge idempotence: merging a non-empty well-formed dataset (strictly
ascending epoch keys) into itself returns the dataset unchanged with
`added_bars = 0` and `overlapping_bars = |D|`. -/
theorem merge_idempotent {α : Type} (D : List (Nat × α))
    (hsorted : D.Pairwise (fun a b => a.1 < b.1)) (hne : D ≠ []) :
    (merge_data (some D) D).1 = D ∧
    (merge_data (some D) D).2.added_bars = 0 ∧
    (merge_data (some D) D).2.overlapping_bars = (D.length : Int) := by
  have hnd : (D.map Prod.fst).Nodup :=
    (List.pairwise_map.mpr hsorted).imp Nat.ne_of_lt
  have hcombined : sortByKey (dropDupKeysKeepLast (D ++ D)) = D := by
    rw [dropDupKeysKeepLast_append_of_covered D D
      (fun x hx => List.mem_map.mpr ⟨x, hx, rfl⟩)]
    rw [dropDupKeysKeepLast_of_nodup D hnd]
    exact sortByKey_of_sorted hsorted
  cases D with
  | nil => exact absurd rfl hne
  | cons x xs =>
    rw [merge_data_cons, hcombined]
    refine ⟨rfl, ?_, ?_⟩
    · simp
    · simp

/-- Witness for C5 on the one-bar dataset at epoch 3 with value 7. -/
theorem merge_idempotent_witness :
    ([((3 : Nat), (7 : Nat))].Pairwise (fun a b => a.1 < b.1)) ∧
    [((3 : Nat), (7 : Nat))] ≠ [] ∧
    ((merge_data (some [((3 : Nat), (7 : Nat))]) [((3 : Nat), (7 : Nat))]).1
        = [((3 : Nat), (7 : Nat))] ∧
      (merge_data (some [((3 : Nat), (7 : Nat))]) [((3 : Nat), (7 : Nat))]).2.added_bars = 0 ∧
      (merge_data (some [((3 : Nat), (7 : Nat))]) [((3 : Nat), (7 : Nat))]).2.overlapping_bars
        = (([((3 : Nat), (7 : Nat))].length : Int))) :=
  ⟨by decide, by decide, merge_idempotent [((3 : Nat), (7 : Nat))] (by decide) (by decide)⟩

/-- C6: merge is total: for every optional existing dataset and every new
dataset — including no existing dataset together with an empty new
dataset — `merge_data` evaluates to a (result, stats) pair, and the
result's key set is the union of the two inputs' key sets. -/
theorem merge_total {α : Type} (existing : Option (List (Nat × α))) (new : List (Nat × α)) :
    ∃ res stats, merge_data existing new = (res, stats) ∧
      ∀ k, (k ∈ res.map Prod.fst ↔
        k ∈ (existing.getD []).map Prod.fst ∨ k ∈ new.map Prod.fst) := by
  refine ⟨(merge_data existing new).1, (merge_data existing new).2, rfl, ?_⟩
  intro k
  match existing with
  | none => simp [merge_data]
  | some [] => simp [merge_data]
  | some (x :: xs) =>
    rw [show (merge_data (some (x :: xs)) new).1
        = sortByKey (dropDupKeysKeepLast ((x :: xs) ++ new)) from rfl]
    rw [mem_keys_sortByKey, mem_keys_dropDupKeysKeepLast, List.map_append,
      List.mem_append]
    simp [Option.getD]

/-! ## Alignment Engine: `filter_and_align`

Raw rows are keyed by exchange-local minute timestamps (the source converts
the fetched UTC-millisecond stamps to `America/New_York` before all
filtering, so one model timestamp stands for one local minute). -/

/-- `df.between_time("09:30", "16:00")`: keep rows whose exchange-local
time of day lies in the regular-trading-hours window, both ends inclusive
(the pandas default for `between_time`). -/
def between_time (l : List (Nat × α)) : List (Nat × α) :=
  l.filter (fun x => decide (RTH_START ≤ timeOf x.1) && decide (timeOf x.1 ≤ RTH_END))

/-- `df[~df.index.normalize().isin(holidays)]`: drop rows dated on an
exchange holiday. -/
def removeHolidays (holidays : List Nat) (l : List (Nat × α)) : List (Nat × α) :=
  l.filter (fun x => ! decide (dateOf x.1 ∈ holidays))

/-- `df.index.normalize().unique()`: the distinct dates of the remaining
rows.  (`unique()` keeps first-appearance order; the grid below sorts the
days, so only the set and distinctness matter downstream.) -/
def tradingDays (l : List (Nat × α)) : List Nat :=
  (l.map (fun x => dateOf x.1)).dedup

/-- `pd.date_range(day 09:30, day 16:00, freq='1min')`: the 391 one-minute
grid slots of one trading day. -/
def dayGrid (d : Nat) : List Nat :=
  (List.range BARS_PER_DAY).map (fun i => d * MINUTES_PER_DAY + RTH_START + i)

/-- The canonical grid over all observed days: `DatetimeIndex.union` keeps
its result sorted, so the per-day ranges are concatenated in ascending day
order. -/
def completeIndex (l : List (Nat × α)) : List Nat :=
  (((tradingDays l).insertionSort (fun a b => a ≤ b)).map dayGrid).flatten

/-- `df.reindex(complete_index)` on a duplicate-free index: one output row
per grid slot, carrying the source row with exactly that index timestamp
when there is one and a missing value (`NaN` row) otherwise.  When the
frame's index has duplicate labels pandas raises instead of looking
anything up; that error path is `filter_and_align_run`'s duplicate check,
so this lookup is only ever evaluated on a duplicate-free frame. -/
def reindex (l : List (Nat × α)) (idx : List Nat) : List (Nat × Option α) :=
  idx.map (fun t => (t, (l.find? (fun x => x.1 == t)).map Prod.snd))

/-- `df.ffill()`: replace each missing value by the nearest preceding
present value; `acc` is the value carried in from before the list. -/
def ffill (acc : Option α) : List (Nat × Option α) → List (Nat × Option α)
  | [] => []
  | x :: xs => (x.1, x.2.or acc) :: ffill (x.2.or acc) xs

/-- First present value among the rows, if any. -/
def firstSome : List (Nat × Option α) → Option α
  | [] => none
  | x :: xs => x.2.or (firstSome xs)

/-- `df.bfill()`: replace each missing value by the nearest following
present value. -/
def bfill : List (Nat × Option α) → List (Nat × Option α)
  | [] => []
  | x :: xs => (x.1, x.2.or (firstSome xs)) :: bfill xs

/-- The nearest present value at a position strictly before slot `i`,
starting from carry `acc` (what forward-fill has in hand when it reaches
slot `i`). -/
def lastCarry (acc : Option α) (src : List (Nat × Option α)) (i : Nat) : Option α :=
  (src.take i).foldl (fun a x => x.2.or a) acc

/-- The successful path of `filter_and_align` from
`market_data_manager.py`: `None` on empty raw input; otherwise RTH filter,
holiday removal, canonical-grid construction from the remaining dates,
reindex by exact minute match, then forward-fill followed by
backward-fill.  (The epoch/display columns the source then recomputes from
the index are functions of the slot timestamps and are not part of the row
payload here.  The `ValueError` pandas raises at the reindex step on a
duplicate index is carried by `filter_and_align_run` below.) -/
def filter_and_align (holidays : List Nat) (raw : List (Nat × α)) :
    Option (List (Nat × Option α)) :=
  if raw.isEmpty then none
  else
    let filtered := removeHolidays holidays (between_time raw)
    some (bfill (ffill none (reindex filtered (completeIndex filtered))))

/-! ### Fill-semantics characterization -/

theorem firstSome_ffill_none {α : Type} :
    ∀ (l : List (Nat × Option α)), firstSome (ffill none l) = firstSome l
  | [] => rfl
  | x :: xs => by
    cases hx : x.2 with
    | some v => simp [ffill, firstSome, hx]
    | none =>
      simp only [ffill, firstSome, hx, Option.or_none, Option.none_or]
      exact firstSome_ffill_none xs

/-- Every slot of the forward- then backward-filled rows keeps its
timestamp and carries: its own source value when present, else the nearest
preceding present value, else the nearest following present value. -/
theorem ffill_bfill_char {α : Type} :
    ∀ (src : List (Nat × Option α)) (acc : Option α) (i : Nat),
      (bfill (ffill acc src))[i]? =
        (src[i]?).map (fun x =>
          (x.1, (x.2.or (lastCarry acc src i)).or (firstSome (src.drop i))))
  | [], acc, i => by simp [ffill, bfill]
  | x :: xs, acc, 0 => by
    cases hx : x.2 with
    | some v => simp [ffill, bfill, lastCarry, firstSome, hx]
    | none =>
      cases hacc : acc with
      | some a => simp [ffill, bfill, lastCarry, firstSome, hx, hacc]
      | none => simp [ffill, bfill, lastCarry, firstSome, hx, hacc, firstSome_ffill_none]
  | x :: xs, acc, i + 1 => by
    simp only [ffill, bfill, List.getElem?_cons_succ, List.drop_succ_cons,
      lastCarry, List.take_succ_cons, List.foldl_cons]
    exact ffill_bfill_char xs (x.2.or acc) i

/-! ### Grid-shape lemmas -/

theorem map_fst_ffill {α : Type} :
    ∀ (acc : Option α) (l : List (Nat × Option α)),
      (ffill acc l).map Prod.fst = l.map Prod.fst
  | _, [] => rfl
  | acc, x :: xs => by simp [ffill, map_fst_ffill]

theorem map_fst_bfill {α : Type} :
    ∀ (l : List (Nat × Option α)), (bfill l).map Prod.fst = l.map Prod.fst
  | [] => rfl
  | x :: xs => by simp [bfill, map_fst_bfill]

theorem map_fst_reindex {α : Type} (l : List (Nat × α)) (idx : List Nat) :
    (reindex l idx).map Prod.fst = idx := by
  induction idx with
  | nil => rfl
  | cons t ts ih =>
    simp only [reindex, List.map_cons] at ih ⊢
    rw [ih]

/-- Every slot of a day's grid is dated on that day. -/
theorem dateOf_mem_dayGrid {d t : Nat} (h : t ∈ dayGrid d) : dateOf t = d := by
  rcases List.mem_map.mp h with ⟨i, hi, rfl⟩
  have hi391 : i < 391 := by simpa [BARS_PER_DAY] using List.mem_range.mp hi
  simp only [dateOf, MINUTES_PER_DAY, RTH_START]
  omega

theorem filter_dayGrid_self (d : Nat) :
    (dayGrid d).filter (fun t => dateOf t == d) = dayGrid d :=
  List.filter_eq_self.mpr (fun _t ht => beq_iff_eq.mpr (dateOf_mem_dayGrid ht))

theorem filter_dayGrid_ne {d e : Nat} (h : ¬ e = d) :
    (dayGrid e).filter (fun t => dateOf t == d) = [] := by
  rw [List.filter_eq_nil_iff]
  intro t ht
  rw [beq_iff_eq, dateOf_mem_dayGrid ht]
  exact h

theorem filter_flatten_dayGrid_notmem {d : Nat} :
    ∀ (days : List Nat), d ∉ days →
      (((days.map dayGrid).flatten).filter (fun t => dateOf t == d)) = []
  | [], _ => rfl
  | e :: days, h => by
    simp only [List.map_cons, List.flatten_cons, List.filter_append]
    rw [filter_dayGrid_ne (fun he => h (List.mem_cons.mpr (Or.inl he.symm))),
      filter_flatten_dayGrid_notmem days (fun hd => h (List.mem_cons_of_mem _ hd))]
    rfl

/-- Over distinct days containing `d`, exactly `d`'s 391 slots survive the
date filter. -/
theorem filter_flatten_dayGrid {d : Nat} :
    ∀ (days : List Nat), days.Nodup → d ∈ days →
      (((days.map dayGrid).flatten).filter (fun t => dateOf t == d)) = dayGrid d
  | [], _, hmem => absurd hmem (List.not_mem_nil _)
  | e :: days, hnd, hmem => by
    rcases List.nodup_cons.mp hnd with ⟨he, hds⟩
    simp only [List.map_cons, List.flatten_cons, List.filter_append]
    by_cases hed : e = d
    · rw [hed] at he ⊢
      rw [filter_dayGrid_self, filter_flatten_dayGrid_notmem days he, List.append_nil]
    · rcases List.mem_cons.mp hmem with hd | hd
      · exact absurd hd.symm hed
      · rw [filter_dayGrid_ne hed, filter_flatten_dayGrid days hds hd, List.nil_append]

/-- The reindexed, not-yet-filled grid rows `filter_and_align` builds from
the filtered input. -/
def alignSrc (holidays : List Nat) (raw : List (Nat × α)) : List (Nat × Option α) :=
  reindex (removeHolidays holidays (between_time raw))
    (completeIndex (removeHolidays holidays (between_time raw)))

theorem filter_and_align_eq {α : Type} (holidays : List Nat) (raw : List (Nat × α))
    (h : raw.isEmpty = false) :
    filter_and_align holidays raw = some (bfill (ffill none (alignSrc holidays raw))) := by
  simp [filter_and_align, alignSrc, h]

/-- `index.has_duplicates` of a frame: pandas refuses to reindex on an
axis with duplicate labels. -/
def hasDupIndex (l : List (Nat × α)) : Bool :=
  ! decide ((l.map Prod.fst).Nodup)

/-- A full run of `filter_and_align`, error path included: when the
RTH/holiday-filtered frame's index still carries duplicate timestamps, the
`df_aligned = df.reindex(complete_index)` call raises
`ValueError: cannot reindex on an axis with duplicate labels`
(`Except.error` here) and the run produces no output; otherwise the run
returns `filter_and_align`'s result (the `None` early return on empty raw
input happens before the reindex and never raises). -/
def filter_and_align_run (holidays : List Nat) (raw : List (Nat × α)) :
    Except Unit (Option (List (Nat × Option α))) :=
  if raw.isEmpty then Except.ok none
  else if hasDupIndex (removeHolidays holidays (between_time raw)) then
    Except.error ()
  else Except.ok (filter_and_align holidays raw)

/-- The fill contract of the alignment output `out` against the reindexed
rows `src`: every slot keeps its timestamp and carries its own source
value when present, else the nearest preceding present value
(forward-fill), else — for leading gaps — the nearest following present
value (backward-fill). -/
def fillsFrom (src out : List (Nat × Option α)) : Prop :=
  ∀ i, out[i]? = (src[i]?).map (fun z : Nat × Option α =>
    (z.1, (z.2.or (lastCarry none src i)).or (firstSome (src.drop i))))

/-- Raw input of the spec's fill scenario: one trading day (day 0) with
source bars only at 09:30 (payload 1) and 15:59 (payload 2). -/
def scenarioRaw : List (Nat × Nat) := [(RTH_START, 1), (RTH_START + 389, 2)]

/-- Expected aligned output of the fill scenario: the full 391-slot grid of
day 0; slots 09:30 through 15:58 carry payload 1 (forward-fill from
09:30), slot 15:59 carries its own payload 2, and slot 16:00 carries 2
(forward-fill from 15:59). -/
def scenarioExpected : List (Nat × Option Nat) :=
  (List.range BARS_PER_DAY).map
    (fun i => (RTH_START + i, some (if 389 ≤ i then 2 else 1)))

/-- Raw input with two observed RTH bars sharing one timestamp: a
duplicate index label for the reindex step. -/
def dupRaw : List (Nat × Nat) := [(RTH_START, 1), (RTH_START, 2)]

set_option maxRecDepth 40000 in
/-- C2 (amended): grid completeness and fill semantics on duplicate-free
input: for raw bars with pairwise-distinct timestamps, every non-holiday
day `d` with at least one observed bar inside regular trading hours gets
an aligned output whose slots dated `d` are exactly the 391 minutes
09:30–16:00 of `d` in order (no gaps); every slot carries its source bar
if present, else the nearest preceding value, else the nearest following
value; and on the concrete scenario (source bars only at 09:30 and 15:59)
minutes 09:31–15:58 carry the 09:30 payload while 16:00 carries the 15:59
payload.  (On input whose filtered frame keeps a duplicate timestamp the
run raises instead — see `alignment_grid_complete_counterexample`.) -/
theorem alignment_grid_complete {α : Type} (holidays : List Nat)
    (raw : List (Nat × α)) (d : Nat) (x : Nat × α)
    (hnodup : (raw.map Prod.fst).Nodup)
    (hd : d ∉ holidays) (hxraw : x ∈ raw) (hxd : dateOf x.1 = d)
    (hx1 : RTH_START ≤ timeOf x.1) (hx2 : timeOf x.1 ≤ RTH_END) :
    ∃ out,
      filter_and_align_run holidays raw = Except.ok (some out) ∧
      (out.map Prod.fst).filter (fun t => dateOf t == d) = dayGrid d ∧
      fillsFrom (alignSrc holidays raw) out ∧
      filter_and_align_run ([] : List Nat) scenarioRaw
        = Except.ok (some scenarioExpected) := by
  have hne : raw.isEmpty = false := by
    cases raw with
    | nil => exact absurd hxraw (List.not_mem_nil x)
    | cons a as => rfl
  have hsub : List.Sublist (removeHolidays holidays (between_time raw)) raw :=
    (List.filter_sublist _).trans (List.filter_sublist _)
  have hfilnodup : ((removeHolidays holidays (between_time raw)).map Prod.fst).Nodup :=
    List.Nodup.sublist (hsub.map Prod.fst) hnodup
  have hdup : hasDupIndex (removeHolidays holidays (between_time raw)) = false := by
    simp [hasDupIndex, hfilnodup]
  have hrun : filter_and_align_run holidays raw
      = Except.ok (some (bfill (ffill none (alignSrc holidays raw)))) := by
    simp [filter_and_align_run, hne, hdup, filter_and_align_eq holidays raw hne]
  refine ⟨bfill (ffill none (alignSrc holidays raw)), hrun, ?_, ?_, ?_⟩
  · have hmapfst : (bfill (ffill none (alignSrc holidays raw))).map Prod.fst
        = completeIndex (removeHolidays holidays (between_time raw)) := by
      rw [map_fst_bfill, map_fst_ffill, alignSrc, map_fst_reindex]
    rw [hmapfst]
    show (((((tradingDays (removeHolidays holidays (between_time raw))).insertionSort
        (fun a b => a ≤ b)).map dayGrid).flatten).filter (fun t => dateOf t == d))
      = dayGrid d
    apply filter_flatten_dayGrid
    · exact (List.perm_insertionSort _ _).nodup_iff.mpr (List.nodup_dedup _)
    · apply (List.perm_insertionSort _ _).mem_iff.mpr
      show d ∈ ((removeHolidays holidays (between_time raw)).map
        (fun x => dateOf x.1)).dedup
      apply List.mem_dedup.mpr
      refine List.mem_map.mpr ⟨x, ?_, hxd⟩
      apply List.mem_filter.mpr
      refine ⟨List.mem_filter.mpr ⟨hxraw, ?_⟩, ?_⟩
      · simp [hx1, hx2]
      · simp [hxd, hd]
  · exact fun i => ffill_bfill_char (alignSrc holidays raw) none i
  · have h1 : scenarioRaw.isEmpty = false := rfl
    have h2 : hasDupIndex (removeHolidays ([] : List Nat)
        (between_time scenarioRaw)) = false := by decide
    have h3 : filter_and_align ([] : List Nat) scenarioRaw
        = some scenarioExpected := by decide
    simp [filter_and_align_run, h1, h2, h3]

set_option maxRecDepth 40000 in
/-- Witness for C2 on the scenario input itself: day 0, observed bar
(09:30, payload 1), distinct timestamps. -/
theorem alignment_grid_complete_witness :
    ((scenarioRaw.map Prod.fst).Nodup) ∧
    ((0 : Nat) ∉ ([] : List Nat)) ∧
    ((RTH_START, (1 : Nat)) ∈ scenarioRaw) ∧
    dateOf (RTH_START, (1 : Nat)).1 = 0 ∧
    RTH_START ≤ timeOf (RTH_START, (1 : Nat)).1 ∧
    timeOf (RTH_START, (1 : Nat)).1 ≤ RTH_END ∧
    (∃ out,
      filter_and_align_run ([] : List Nat) scenarioRaw = Except.ok (some out) ∧
      (out.map Prod.fst).filter (fun t => dateOf t == 0) = dayGrid 0 ∧
      fillsFrom (alignSrc ([] : List Nat) scenarioRaw) out ∧
      filter_and_align_run ([] : List Nat) scenarioRaw
        = Except.ok (some scenarioExpected)) :=
  ⟨by decide, by decide, by decide, by decide, by decide, by decide,
    alignment_grid_complete ([] : List Nat) scenarioRaw 0 (RTH_START, (1 : Nat))
      (by decide) (by decide) (by decide) (by decide) (by decide) (by decide)⟩

/-- C2 counterexample to the claim as stated: day 0 is no holiday and
`dupRaw` observes an RTH bar on it, yet the alignment run raises on the
duplicate index label and emits no output at all — in particular no
391-bar day 0. -/
theorem alignment_grid_complete_counterexample :
    ((0 : Nat) ∉ ([] : List Nat)) ∧
    ((RTH_START, (1 : Nat)) ∈ dupRaw ∧ dateOf RTH_START = 0 ∧
      RTH_START ≤ timeOf RTH_START ∧ timeOf RTH_START ≤ RTH_END) ∧
    filter_and_align_run ([] : List Nat) dupRaw = Except.error () ∧
    ¬ ∃ out : List (Nat × Option Nat),
      filter_and_align_run ([] : List Nat) dupRaw = Except.ok (some out) := by
  have herr : filter_and_align_run ([] : List Nat) dupRaw = Except.error () := by
    have h1 : dupRaw.isEmpty = false := rfl
    have h2 : hasDupIndex (removeHolidays ([] : List Nat)
        (between_time dupRaw)) = true := by decide
    simp [filter_and_align_run, h1, h2]
  refine ⟨by decide, ⟨by decide, by decide, by decide, by decide⟩, herr, ?_⟩
  rintro ⟨out, hout⟩
  rw [herr] at hout
  exact Except.noConfusion hout

/-- C7: holiday exclusion: no row of the aligned output is dated on a day
in the exchange holiday set. -/
theorem alignment_holiday_free {α : Type} (holidays : List Nat)
    (raw : List (Nat × α)) (out : List (Nat × Option α))
    (hrun : filter_and_align holidays raw = some out) :
    ∀ p ∈ out, dateOf p.1 ∉ holidays := by
  intro p hp
  cases raw with
  | nil => simp [filter_and_align] at hrun
  | cons a as =>
    have hout : out = bfill (ffill none (alignSrc holidays (a :: as))) := by
      rw [filter_and_align_eq holidays (a :: as) rfl] at hrun
      exact (Option.some_inj.mp hrun).symm
    have hfst : p.1 ∈ completeIndex (removeHolidays holidays (between_time (a :: as))) := by
      have hmem : p.1 ∈ out.map Prod.fst := List.mem_map.mpr ⟨p, hp, rfl⟩
      rw [hout, map_fst_bfill, map_fst_ffill, alignSrc, map_fst_reindex] at hmem
      exact hmem
    rw [show completeIndex (removeHolidays holidays (between_time (a :: as)))
        = (((tradingDays (removeHolidays holidays (between_time (a :: as)))).insertionSort
            (fun a b => a ≤ b)).map dayGrid).flatten from rfl] at hfst
    rcases List.mem_flatten.mp hfst with ⟨g, hg, hpg⟩
    rcases List.mem_map.mp hg with ⟨e, he, rfl⟩
    have hdate : dateOf p.1 = e := dateOf_mem_dayGrid hpg
    have hetd : e ∈ tradingDays (removeHolidays holidays (between_time (a :: as))) :=
      (List.perm_insertionSort _ _).mem_iff.mp he
    have hed : e ∈ (removeHolidays holidays (between_time (a :: as))).map
        (fun x => dateOf x.1) := List.mem_dedup.mp hetd
    rcases List.mem_map.mp hed with ⟨y, hy, hyd⟩
    have hcond := (List.mem_filter.mp hy).2
    rw [Bool.not_eq_eq_eq_not, Bool.not_true, decide_eq_false_iff_not] at hcond
    rw [hdate, ← hyd]
    exact hcond

set_option maxRecDepth 40000 in
/-- Witness for C7: with 1 as the only holiday, day-0 output slots are not
holiday-dated. -/
theorem alignment_holiday_free_witness :
    (filter_and_align [1] scenarioRaw = some scenarioExpected) ∧
    ((RTH_START, some (1 : Nat)) ∈ scenarioExpected) ∧
    dateOf (RTH_START, some (1 : Nat)).1 ∉ [1] :=
  ⟨by decide, by decide,
    alignment_holiday_free [1] scenarioRaw scenarioExpected (by decide)
      (RTH_START, some (1 : Nat)) (by decide)⟩

/-! ## Dual-Format Persistence: `_save_binary` / `_read_binary_file`

The binary artifact is modeled as its byte sequence (each entry < 256).
`struct.pack('<d', x)` writes exactly the 8 bytes of the double's
IEEE-754 bit pattern, so a double is modeled by that 64-bit pattern —
the contract compares floats "by exact bit pattern", never numerically. -/

/-- One persisted bar record: UTF-8 bytes of the display timestamp, epoch
seconds (signed 64-bit), the four OHLC doubles as 64-bit patterns, and the
unsigned 64-bit volume. -/
structure BinBar where
  ts : List Nat
  epoch : Int
  op : Nat
  hi : Nat
  lo : Nat
  cl : Nat
  volume : Nat
deriving Repr, DecidableEq

/-- The in-range conditions `struct.pack('<I')`/`('<qddddQ')` impose. -/
def BinBar.wf (b : BinBar) : Prop :=
  b.ts.length < 2 ^ 32 ∧ -(2 ^ 63) ≤ b.epoch ∧ b.epoch < 2 ^ 63 ∧
  b.op < 2 ^ 64 ∧ b.hi < 2 ^ 64 ∧ b.lo < 2 ^ 64 ∧ b.cl < 2 ^ 64 ∧ b.volume < 2 ^ 64

instance (b : BinBar) : Decidable b.wf := by
  unfold BinBar.wf
  infer_instance

/-- `n`-byte little-endian encoding of a word, as `struct.pack` lays it
out. -/
def leBytes : Nat → Nat → List Nat
  | 0, _ => []
  | n + 1, x => (x % 256) :: leBytes n (x / 256)

/-- Little-endian decoding of a byte list, as `struct.unpack` reads it. -/
def leDecode (bs : List Nat) : Nat :=
  bs.foldr (fun b acc => b + 256 * acc) 0

/-- `struct.unpack('<q')`: reinterpret an unsigned 64-bit word as a
two's-complement signed value. -/
def decodeInt64 (u : Nat) : Int :=
  if u < 2 ^ 63 then (u : Int) else (u : Int) - 2 ^ 64

/-- The fixed 48-byte `<qddddQ>` record of one bar. -/
def recBytes (b : BinBar) : List Nat :=
  leBytes 8 (b.epoch.emod (2 ^ 64)).toNat ++ leBytes 8 b.op ++ leBytes 8 b.hi ++
    leBytes 8 b.lo ++ leBytes 8 b.cl ++ leBytes 8 b.volume

/-- The byte image `_save_binary` writes for one bar: 4-byte LE timestamp
length, the timestamp bytes, then the fixed record. -/
def packBar (b : BinBar) : List Nat :=
  leBytes 4 b.ts.length ++ b.ts ++ recBytes b

/-- `_save_binary`: 8-byte LE bar count followed by each bar's image. -/
def save_binary (bars : List BinBar) : List Nat :=
  leBytes 8 bars.length ++ (bars.map packBar).flatten

/-- `f.read(n)` with the source's short-read check: `len(...) != n`
aborts the whole read with `None`. -/
def readBytes (n : Nat) (s : List Nat) : Option (List Nat × List Nat) :=
  if n ≤ s.length then some (s.take n, s.drop n) else none

/-- Parse one bar: the length-prefixed timestamp bytes, then the 48-byte
record split into its six fields. -/
def readBar (s : List Nat) : Option (BinBar × List Nat) := do
  let (lenB, s1) ← readBytes 4 s
  let (tsB, s2) ← readBytes (leDecode lenB) s1
  let (recB, s3) ← readBytes 48 s2
  some ({ ts := tsB
          epoch := decodeInt64 (leDecode (recB.take 8))
          op := leDecode ((recB.drop 8).take 8)
          hi := leDecode ((recB.drop 16).take 8)
          lo := leDecode ((recB.drop 24).take 8)
          cl := leDecode ((recB.drop 32).take 8)
          volume := leDecode ((recB.drop 40).take 8) }, s3)

/-- Parse `n` consecutive bars. -/
def readBars : Nat → List Nat → Option (List BinBar × List Nat)
  | 0, s => some ([], s)
  | n + 1, s => do
    let (b, s1) ← readBar s
    let (bs, s2) ← readBars n s1
    some (b :: bs, s2)

/-- `_read_binary_file`: read the 8-byte count, then that many bars; any
short read yields `None`.  (The source then repackages the parsed records
as a frame; the per-field record content is what round-trips.) -/
def read_binary_file (s : List Nat) : Option (List BinBar) := do
  let (cntB, s1) ← readBytes 8 s
  let (bars, _) ← readBars (leDecode cntB) s1
  some bars

/-! ### Round-trip lemmas -/

theorem length_leBytes : ∀ (n x : Nat), (leBytes n x).length = n
  | 0, _ => rfl
  | n + 1, x => by simp [leBytes, length_leBytes n]

theorem leDecode_leBytes : ∀ (n x : Nat), x < 256 ^ n → leDecode (leBytes n x) = x
  | 0, x, h => by
    simp only [leBytes, leDecode, List.foldr_nil]
    simp at h
    omega
  | n + 1, x, h => by
    have hdiv : x / 256 < 256 ^ n := by
      rw [Nat.pow_succ] at h
      omega
    simp only [leBytes, leDecode, List.foldr_cons]
    rw [show List.foldr (fun b acc => b + 256 * acc) 0 (leBytes n (x / 256))
        = leDecode (leBytes n (x / 256)) from rfl]
    rw [leDecode_leBytes n (x / 256) hdiv]
    omega

theorem readBytes_exact {n : Nat} (bs rest : List Nat) (h : bs.length = n) :
    readBytes n (bs ++ rest) = some (bs, rest) := by
  subst h
  rw [readBytes, if_pos (by simp)]
  rw [List.take_left, List.drop_left]

theorem decodeInt64_emod (z : Int) (h1 : -(2 ^ 63) ≤ z) (h2 : z < 2 ^ 63) :
    decodeInt64 ((z.emod (2 ^ 64)).toNat) = z := by
  have hnn : 0 ≤ z.emod (2 ^ 64) := Int.emod_nonneg z (by norm_num)
  have hlt : z.emod (2 ^ 64) < 2 ^ 64 := Int.emod_lt_of_pos z (by norm_num)
  have hdef : z.emod (2 ^ 64) = z - 2 ^ 64 * (z.ediv (2 ^ 64)) := by
    show z % (2 ^ 64) = z - 2 ^ 64 * (z / (2 ^ 64))
    rw [Int.emod_def]
  unfold decodeInt64
  norm_num at h1 h2 hnn hlt hdef ⊢
  split <;> omega

theorem readBar_packBar (b : BinBar) (hwf : b.wf) (rest : List Nat) :
    readBar (packBar b ++ rest) = some (b, rest) := by
  obtain ⟨hts, he1, he2, hop, hhi, hlo, hcl, hvol⟩ := hwf
  have hts4 : b.ts.length < 256 ^ 4 := by norm_num at hts ⊢; omega
  have h256 : ∀ y : Nat, y < 2 ^ 64 → y < 256 ^ 8 := by
    intro y hy; norm_num at hy ⊢; omega
  have hrec : (recBytes b).length = 48 := by
    simp [recBytes, length_leBytes]
  have hstream : packBar b ++ rest
      = leBytes 4 b.ts.length ++ (b.ts ++ (recBytes b ++ rest)) := by
    simp [packBar, List.append_assoc]
  have htake0 : (recBytes b).take 8 = leBytes 8 ((b.epoch.emod (2 ^ 64)).toNat) := by
    rw [recBytes]
    exact List.take_left' (length_leBytes 8 _)
  have hdrop8 : (recBytes b).drop 8
      = leBytes 8 b.op ++ (leBytes 8 b.hi ++ (leBytes 8 b.lo ++
          (leBytes 8 b.cl ++ leBytes 8 b.volume))) := by
    rw [recBytes]
    simp only [List.append_assoc]
    exact List.drop_left' (length_leBytes 8 _)
  have hdrop16 : (recBytes b).drop 16
      = leBytes 8 b.hi ++ (leBytes 8 b.lo ++ (leBytes 8 b.cl ++ leBytes 8 b.volume)) := by
    have h2 : (recBytes b).drop 16 = ((recBytes b).drop 8).drop 8 := by
      rw [List.drop_drop]
    rw [h2, hdrop8]
    exact List.drop_left' (length_leBytes 8 _)
  have hdrop24 : (recBytes b).drop 24
      = leBytes 8 b.lo ++ (leBytes 8 b.cl ++ leBytes 8 b.volume) := by
    have h2 : (recBytes b).drop 24 = ((recBytes b).drop 16).drop 8 := by
      rw [List.drop_drop]
    rw [h2, hdrop16]
    exact List.drop_left' (length_leBytes 8 _)
  have hdrop32 : (recBytes b).drop 32 = leBytes 8 b.cl ++ leBytes 8 b.volume := by
    have h2 : (recBytes b).drop 32 = ((recBytes b).drop 24).drop 8 := by
      rw [List.drop_drop]
    rw [h2, hdrop24]
    exact List.drop_left' (length_leBytes 8 _)
  have hdrop40 : (recBytes b).drop 40 = leBytes 8 b.volume := by
    have h2 : (recBytes b).drop 40 = ((recBytes b).drop 32).drop 8 := by
      rw [List.drop_drop]
    rw [h2, hdrop32]
    exact List.drop_left' (length_leBytes 8 _)
  simp only [readBar, hstream]
  rw [readBytes_exact _ _ (length_leBytes 4 _)]
  simp only [Option.bind_eq_bind, Option.some_bind]
  rw [leDecode_leBytes 4 _ hts4]
  rw [readBytes_exact _ _ rfl]
  simp only [Option.some_bind]
  rw [readBytes_exact _ _ hrec]
  simp only [Option.some_bind]
  rw [htake0, hdrop8, hdrop16, hdrop24, hdrop32, hdrop40]
  rw [List.take_left' (length_leBytes 8 _), List.take_left' (length_leBytes 8 _),
    List.take_left' (length_leBytes 8 _), List.take_left' (length_leBytes 8 _),
    List.take_of_length_le (by rw [length_leBytes])]
  rw [leDecode_leBytes 8 _ (h256 _ hop), leDecode_leBytes 8 _ (h256 _ hhi),
    leDecode_leBytes 8 _ (h256 _ hlo), leDecode_leBytes 8 _ (h256 _ hcl),
    leDecode_leBytes 8 _ (h256 _ hvol)]
  have hez : (b.epoch.emod (2 ^ 64)).toNat < 256 ^ 8 := by
    have hnn : 0 ≤ b.epoch.emod (2 ^ 64) := Int.emod_nonneg _ (by norm_num)
    have hlt : b.epoch.emod (2 ^ 64) < 2 ^ 64 := Int.emod_lt_of_pos _ (by norm_num)
    norm_num at hlt ⊢
    omega
  rw [leDecode_leBytes 8 _ hez, decodeInt64_emod b.epoch he1 he2]

theorem readBars_flatten : ∀ (bars : List BinBar), (∀ b ∈ bars, b.wf) →
    ∀ (rest : List Nat),
      readBars bars.length ((bars.map packBar).flatten ++ rest) = some (bars, rest)
  | [], _, rest => by simp [readBars]
  | b :: bs, hwf, rest => by
    have hb : readBar (packBar b ++ ((bs.map packBar).flatten ++ rest))
        = some (b, (bs.map packBar).flatten ++ rest) :=
      readBar_packBar b (hwf b (List.mem_cons_self ..)) _
    simp only [List.length_cons, List.map_cons, List.flatten_cons, List.append_assoc,
      readBars, Option.bind_eq_bind]
    rw [hb]
    simp only [Option.some_bind]
    rw [readBars_flatten bs (fun y hy => hwf y (List.mem_cons_of_mem _ hy)) rest]
    rfl

/-- C3: binary persistence round-trips: decoding the artifact written for
any in-range dataset reproduces every bar field-for-field — timestamp
bytes, epoch integer, the four OHLC 64-bit patterns bit-exactly, and the
volume. -/
theorem binary_roundtrip (bars : List BinBar)
    (hwf : ∀ b ∈ bars, b.wf) (hcount : bars.length < 2 ^ 64) :
    read_binary_file (save_binary bars) = some bars := by
  have hc8 : bars.length < 256 ^ 8 := by norm_num at hcount ⊢; omega
  simp only [read_binary_file, save_binary, Option.bind_eq_bind]
  rw [readBytes_exact _ _ (length_leBytes 8 _)]
  simp only [Option.some_bind]
  rw [leDecode_leBytes 8 _ hc8]
  have := readBars_flatten bars hwf []
  rw [List.append_nil] at this
  rw [this]
  rfl

/-- A concrete in-range bar with a negative epoch and distinct field
patterns. -/
def sampleBar : BinBar :=
  { ts := [65, 66], epoch := -5, op := 17, hi := 2, lo := 0, cl := 3, volume := 4 }

/-- Witness for C3 on the one-bar dataset `[sampleBar]`. -/
theorem binary_roundtrip_witness :
    (∀ b ∈ [sampleBar], b.wf) ∧
    ([sampleBar].length < 2 ^ 64) ∧
    read_binary_file (save_binary [sampleBar]) = some [sampleBar] :=
  ⟨by decide, by decide, binary_roundtrip [sampleBar] (by decide) (by decide)⟩

/-! ## The on-disk store: status, listing and integrity verification

The store is the file system as the tool sees it: for each symbol
(numbered; names only need an order), its two artifacts.  A CSV artifact
is `none` (file absent) or `some parsed` where `parsed = none` models a
file that is present but empty or unparseable (`read_existing_data`
yields no frame) and `parsed = some rows` a well-formed file.  The binary
artifact is modeled the same way through `_read_binary_file`'s outcome.
Every operation takes the state and returns its value *and* the resulting
state, so that reading and writing are distinguishable in the model. -/

/-- One symbol's two on-disk artifacts. -/
structure Artifacts (α : Type) where
  csv : Option (Option (List (Nat × α)))
  bin : Option (Option (List (Nat × α)))
deriving Repr, DecidableEq

/-- The file system: each listed symbol's artifacts. -/
abbrev FsState (α : Type) := List (Nat × Artifacts α)

/-- Look up a symbol's artifacts (pure helper). -/
def lookupArt (sym : Nat) (s : FsState α) : Option (Artifacts α) :=
  (s.find? (fun e => e.1 == sym)).map Prod.snd

/-- `csv_path.exists()` — a read. -/
def csvExists_fs (sym : Nat) (s : FsState α) : Bool × FsState α :=
  (match lookupArt sym s with
   | none => false
   | some a => a.csv.isSome, s)

/-- `bin_path.exists()` — a read. -/
def binExists_fs (sym : Nat) (s : FsState α) : Bool × FsState α :=
  (match lookupArt sym s with
   | none => false
   | some a => a.bin.isSome, s)

/-- `read_existing_data` — a read: `None` when the CSV file is absent,
empty or unparseable (and also when it parses to an empty frame). -/
def read_existing_data_fs (sym : Nat) (s : FsState α) :
    Option (List (Nat × α)) × FsState α :=
  (((lookupArt sym s).bind (fun a => a.csv.join)).bind
    (fun frame => if frame.isEmpty then none else some frame), s)

/-- `_read_binary_file` — a read: `None` when the binary file is absent or
unreadable. -/
def read_binary_file_fs (sym : Nat) (s : FsState α) :
    Option (List (Nat × α)) × FsState α :=
  ((lookupArt sym s).bind (fun a => a.bin.join), s)

/-- `list_all_symbols` — a read: the symbols whose CSV file exists
(`glob("*_RTH_NH.csv")`), sorted. -/
def list_all_symbols_fs (s : FsState α) : List Nat × FsState α :=
  (((s.filter (fun e => e.2.csv.isSome)).map Prod.fst).insertionSort (fun a b => a ≤ b), s)

/-- `get_date_range`: `(min date, max date)` of a frame, `None` when
empty. -/
def get_date_range (frame : List (Nat × α)) : Option (Nat × Nat) :=
  match (frame.map Prod.fst).min?, (frame.map Prod.fst).max? with
  | some mn, some mx => some (dateOf mn, dateOf mx)
  | _, _ => none

/-- `list_trading_days` with no symbol argument (the `--list-dates`
query): the first listed symbol's distinct trading days, ascending; `[]`
when the store is empty or that symbol has no readable data.  (The
YYYY-MM-DD formatting of a day is represented by the day number itself.) -/
def list_trading_days (s : FsState α) : List Nat :=
  match (list_all_symbols_fs s).1 with
  | [] => []
  | sym :: _ =>
    match (read_existing_data_fs sym s).1 with
    | none => []
    | some frame =>
      ((frame.map (fun x => dateOf x.1)).dedup).insertionSort (fun a b => a ≤ b)

/-- Python `len(...)` on an optional frame: `len(None)` raises
`TypeError`. -/
def pyLen (df : Option (List (Nat × α))) : Except Unit Nat :=
  match df with
  | none => Except.error ()
  | some frame => Except.ok frame.length

/-- The record `get_status` returns (`exists` is `present` here; the
file-size fields carry no model content and are omitted). -/
structure Status where
  present : Bool
  bars : Nat
  days : Nat
  start_date : Option Nat
  end_date : Option Nat
deriving Repr, DecidableEq

/-- `get_status`: the absent-CSV branch returns a `present = false`
record; otherwise the frame is read and `len(df)` is evaluated
unconditionally — `Except.error` models the `TypeError` Python raises
when `read_existing_data` returned `None`. -/
def get_status (sym : Nat) (s : FsState α) : Except Unit Status × FsState α :=
  let (hasCsv, s1) := csvExists_fs sym s
  if hasCsv then
    let (df, s2) := read_existing_data_fs sym s1
    (match pyLen df with
     | Except.error e => Except.error e
     | Except.ok bars =>
       Except.ok { present := true
                   bars := bars
                   days := bars / BARS_PER_DAY
                   start_date := (df.bind (fun f => (f.map Prod.fst).min?)).map dateOf
                   end_date := (df.bind (fun f => (f.map Prod.fst).max?)).map dateOf }, s2)
  else
    (Except.ok { present := false
                 bars := 0
                 days := 0
                 start_date := none
                 end_date := none }, s1)

/-- The per-symbol loop of `verify_integrity`, threading the pass flag and
the reference `(days, bars)` through the reads. -/
def verifyLoop : List Nat → Bool → Option (Nat × Nat) → FsState α → Bool × FsState α
  | [], ok, _, s => (ok, s)
  | sym :: rest, ok, ref, s =>
    let (df, s1) := read_existing_data_fs sym s
    match df with
    | none => verifyLoop rest false ref s1
    | some frame =>
      let bars := frame.length
      let days := bars / BARS_PER_DAY
      let ok1 := if bars ≠ days * BARS_PER_DAY then false else ok
      match ref with
      | none => verifyLoop rest ok1 (some (days, bars)) s1
      | some (rd, rb) =>
        verifyLoop rest (if days ≠ rd ∨ bars ≠ rb then false else ok1) (some (rd, rb)) s1

/-- `verify_integrity`: all symbols readable, day-aligned and matching the
first symbol's day/bar counts. -/
def verify_integrity (symbols : List Nat) (s : FsState α) : Bool × FsState α :=
  verifyLoop symbols true none s

/-- Some represented day has a bar count ≠ 391 (the per-day
`groupby(date).size()` check). -/
def badDayCount (frame : List (Nat × α)) : Bool :=
  ((frame.map (fun x => dateOf x.1)).dedup).any
    (fun d => frame.countP (fun x => dateOf x.1 == d) != BARS_PER_DAY)

/-- One symbol's checks in `sanity_check`: the number of issues found and
the updated cross-symbol reference `(date range, days)`, after the reads.
A missing or unreadable CSV skips the remaining per-symbol checks, exactly
as the source `continue`s. -/
def sanityStep (sym : Nat) (ref : Option ((Option (Nat × Nat)) × Nat))
    (s : FsState α) : (Nat × Option ((Option (Nat × Nat)) × Nat)) × FsState α :=
  let (hasCsv, s1) := csvExists_fs sym s
  if hasCsv = false then ((1, ref), s1)
  else
    let (csvDf, s2) := read_existing_data_fs sym s1
    match csvDf with
    | none => ((1, ref), s2)
    | some frame =>
      let csvRange := get_date_range frame
      let csvBars := frame.length
      let csvDays := csvBars / BARS_PER_DAY
      let e1 := if csvBars ≠ csvDays * BARS_PER_DAY then 1 else 0
      let e2 := if badDayCount frame then 1 else 0
      let (hasBin, s3) := binExists_fs sym s2
      let (ebin, s4) :=
        if hasBin = false then ((1 : Nat), s3)
        else
          let (binDf, s4') := read_binary_file_fs sym s3
          match binDf with
          | none => ((1 : Nat), s4')
          | some bframe =>
            let binBars := bframe.length
            let binDays := binBars / BARS_PER_DAY
            let b1 := if binBars ≠ binDays * BARS_PER_DAY then 1 else 0
            let b2 := if badDayCount bframe then 1 else 0
            let b3 := if csvBars ≠ binBars then 1 else 0
            let b4 := if csvRange ≠ get_date_range bframe then 1 else 0
            ((b1 + b2 + b3 + b4 : Nat), s4')
      match ref with
      | none => ((e1 + e2 + ebin, some (csvRange, csvDays)), s4)
      | some (rrange, rdays) =>
        ((e1 + e2 + ebin + (if csvRange ≠ rrange then 1 else 0),
          some (rrange, rdays)), s4)

/-- The per-symbol loop of `sanity_check`, accumulating the issue count
(the source collects all issues before judging). -/
def sanityLoop : List Nat → Nat → Option ((Option (Nat × Nat)) × Nat) →
    FsState α → Nat × FsState α
  | [], errs, _, s => (errs, s)
  | sym :: rest, errs, ref, s =>
    let ((e, r), s1) := sanityStep sym ref s
    sanityLoop rest (errs + e) r s1

/-- `sanity_check`: `False` on an empty store, else `True` exactly when no
issue was collected over all symbols.  (Issue lines are printed, not
stored; the model keeps their count.) -/
def sanity_check (s : FsState α) : Bool × FsState α :=
  let (symbols, s0) := list_all_symbols_fs s
  if symbols.isEmpty then (false, s0)
  else
    let (errs, s1) := sanityLoop symbols 0 none s0
    (decide (errs = 0), s1)

/-! ### C9: the verifier never mutates the store -/

theorem verifyLoop_state {α : Type} :
    ∀ (symbols : List Nat) (ok : Bool) (ref : Option (Nat × Nat)) (s : FsState α),
      (verifyLoop symbols ok ref s).2 = s
  | [], _, _, _ => rfl
  | sym :: rest, ok, ref, s => by
    simp only [verifyLoop, read_existing_data_fs]
    cases ((lookupArt sym s).bind (fun a => a.csv.join)).bind
        (fun frame => if frame.isEmpty then none else some frame) with
    | none => exact verifyLoop_state rest false ref s
    | some frame =>
      cases ref with
      | none => exact verifyLoop_state rest _ _ s
      | some p => exact verifyLoop_state rest _ _ s

theorem sanityStep_state {α : Type} (sym : Nat)
    (ref : Option ((Option (Nat × Nat)) × Nat)) (s : FsState α) :
    (sanityStep sym ref s).2 = s := by
  simp only [sanityStep, csvExists_fs, read_existing_data_fs, binExists_fs,
    read_binary_file_fs]
  repeat' split
  all_goals rfl

theorem sanityLoop_state {α : Type} :
    ∀ (symbols : List Nat) (errs : Nat) (ref : Option ((Option (Nat × Nat)) × Nat))
      (s : FsState α), (sanityLoop symbols errs ref s).2 = s
  | [], _, _, _ => rfl
  | sym :: rest, errs, ref, s => by
    rcases hstep : sanityStep sym ref s with ⟨⟨e, r⟩, s1⟩
    have hs : s1 = s := by
      have h0 := sanityStep_state sym ref s
      rw [hstep] at h0
      exact h0
    simp only [sanityLoop, hstep]
    rw [hs]
    exact sanityLoop_state rest (errs + e) r s

/-- C9: the integrity verifier only reads: running `verify_integrity`
(over any symbol list) and `sanity_check` returns the file-system state —
both artifacts of every symbol — exactly as it was; stored data is never
mutated. -/
theorem verifier_reads_only {α : Type} (symbols : List Nat) (s : FsState α) :
    (verify_integrity symbols s).2 = s ∧ (sanity_check s).2 = s := by
  refine ⟨verifyLoop_state symbols true none s, ?_⟩
  simp only [sanity_check, list_all_symbols_fs]
  split
  · rfl
  · rcases hloop : sanityLoop (((s.filter (fun e => e.2.csv.isSome)).map
        Prod.fst).insertionSort (fun a b => a ≤ b)) 0 none s with ⟨errs, s1⟩
    have h0 := sanityLoop_state (((s.filter (fun e => e.2.csv.isSome)).map
        Prod.fst).insertionSort (fun a b => a ≤ b)) 0 none s
    rw [hloop] at h0
    simp only [hloop]
    exact h0

/-! ### C10: status on a present but unreadable CSV -/

/-- C10: `get_status` on a symbol whose CSV file exists but yields no
frame (empty or unparseable, so `read_existing_data` returns `None`)
raises — `len(None)` — instead of returning a record; and a
`present = false` record is returned only when the CSV file is absent. -/
theorem get_status_char {α : Type} (sym : Nat) (s : FsState α) :
    ((csvExists_fs sym s).1 = true → (read_existing_data_fs sym s).1 = none →
      (get_status sym s).1 = Except.error ()) ∧
    (∀ st : Status, (get_status sym s).1 = Except.ok st → st.present = false →
      (csvExists_fs sym s).1 = false) := by
  constructor
  · intro hcsv hread
    have hc : (match lookupArt sym s with
        | none => false | some a => a.csv.isSome) = true := hcsv
    have hr : ((lookupArt sym s).bind (fun a => a.csv.join)).bind
        (fun frame => if frame.isEmpty then none else some frame) = none := hread
    simp only [get_status, csvExists_fs, read_existing_data_fs]
    rw [if_pos hc, hr]
    rfl
  · intro st hok hpres
    by_cases hc : (match lookupArt sym s with
        | none => false | some a => a.csv.isSome) = true
    · exfalso
      simp only [get_status, csvExists_fs, read_existing_data_fs] at hok
      rw [if_pos hc] at hok
      cases hV : ((lookupArt sym s).bind (fun a => a.csv.join)).bind
          (fun frame => if frame.isEmpty then none else some frame) with
      | none =>
        rw [hV] at hok
        exact absurd hok (by simp [pyLen])
      | some frame =>
        rw [hV] at hok
        simp only [pyLen, Except.ok.injEq] at hok
        rw [← hok] at hpres
        simp at hpres
    · exact Bool.eq_false_iff.mpr hc

/-- A store whose one symbol has a CSV file that is present but empty or
unparseable. -/
def corruptStore : FsState Nat := [(0, { csv := some none, bin := none })]

/-- Witness for C10 on `corruptStore`. -/
theorem get_status_char_witness :
    (csvExists_fs 0 corruptStore).1 = true ∧
    (read_existing_data_fs 0 corruptStore).1 = none ∧
    (get_status 0 corruptStore).1 = Except.error () :=
  ⟨by decide, by decide,
    (get_status_char 0 corruptStore).1 (by decide) (by decide)⟩

/-! ### C8: the trading-day listing -/

/-- A store where the alphabetically first symbol holds day 0 only while a
second symbol holds day 1. -/
def twoSymbolStore : FsState Nat :=
  [(0, { csv := some (some [(RTH_START, 0)]), bin := none }),
   (1, { csv := some (some [(MINUTES_PER_DAY + RTH_START, 0)]), bin := none })]

/-- C8 counterexample: day 1 is present across the store's symbols (symbol
1 holds it) yet absent from the trading-day listing, which reads only the
first symbol — the listing does not return all trading days of the
store. -/
theorem list_trading_days_counterexample :
    (∃ e ∈ twoSymbolStore, ∃ frame, e.2.csv = some (some frame) ∧
      (1 : Nat) ∈ frame.map (fun x => dateOf x.1)) ∧
    (1 : Nat) ∉ list_trading_days twoSymbolStore := by
  constructor
  · refine ⟨(1, { csv := some (some [(MINUTES_PER_DAY + RTH_START, 0)]), bin := none }),
      ?_, [(MINUTES_PER_DAY + RTH_START, 0)], rfl, ?_⟩
    · decide
    · decide
  · decide

/-- C8 amended: the trading-day listing returns the *first* listed
symbol's distinct trading days — ascending, one entry per day, `[]` when
the store is empty or that symbol's data is unreadable or empty; other
symbols' days do not contribute. -/
theorem list_trading_days_first_symbol {α : Type} (s : FsState α) :
    (list_trading_days s).Pairwise (· ≤ ·) ∧
    (list_trading_days s).Nodup ∧
    (∀ d, d ∈ list_trading_days s ↔
      ∃ sym rest frame, (list_all_symbols_fs s).1 = sym :: rest ∧
        (read_existing_data_fs sym s).1 = some frame ∧
        d ∈ frame.map (fun x => dateOf x.1)) := by
  cases hsym : (list_all_symbols_fs s).1 with
  | nil =>
    have hout : list_trading_days s = [] := by
      simp only [list_trading_days, hsym]
    rw [hout]
    refine ⟨List.Pairwise.nil, List.nodup_nil, ?_⟩
    intro d
    simp only [List.not_mem_nil, false_iff]
    rintro ⟨sym, rest, frame, habs, -, -⟩
    exact List.noConfusion habs
  | cons sym rest0 =>
    cases hread : (read_existing_data_fs sym s).1 with
    | none =>
      have hout : list_trading_days s = [] := by
        simp only [list_trading_days, hsym, hread]
      rw [hout]
      refine ⟨List.Pairwise.nil, List.nodup_nil, ?_⟩
      intro d
      simp only [List.not_mem_nil, false_iff]
      rintro ⟨sym2, rest2, frame, habs, hread2, -⟩
      injection habs with h1 h2
      subst h1
      rw [hread] at hread2
      exact Option.noConfusion hread2
    | some frame =>
      have hout : list_trading_days s
          = ((frame.map (fun x => dateOf x.1)).dedup).insertionSort
              (fun a b => a ≤ b) := by
        simp only [list_trading_days, hsym, hread]
      rw [hout]
      refine ⟨List.sorted_insertionSort _ _, ?_, ?_⟩
      · exact ((List.perm_insertionSort _ _).nodup_iff).mpr (List.nodup_dedup _)
      · intro d
        rw [(List.perm_insertionSort _ _).mem_iff, List.mem_dedup]
        constructor
        · intro hmem
          exact ⟨sym, rest0, frame, rfl, hread, hmem⟩
        · rintro ⟨sym2, rest2, frame2, habs, hread2, hmem2⟩
          injection habs with h1 h2
          subst h1
          rw [hread] at hread2
          injection hread2 with h3
          subst h3
          exact hmem2
